import Mathlib

/-!
Verification of the MyJournal.io core: the event-log → task reconciler
(`eventsToTasks` in `src/hooks/useJournal.ts` together with the helpers in
`src/types/event.ts`) and the overlap-aware interval layout engine
(`arrangeTasks` and the multi-day clipping in
`src/components/VerticalTimeline.tsx`).

Modelling conventions:
* Timestamps are integers measured in *local-clock milliseconds* (the code
  formats and compares dates using the local calendar, so we work directly in
  the local frame).  `localDayOf` is the local calendar-day index, obtained by
  floor division; Lean's `Int` `/` is Euclidean division, which coincides with
  floor division for the positive divisor `msPerDay`.
* The JavaScript `Map` used by the reconciler preserves insertion order and
  `set` on an existing key keeps its position; we model it as an association
  list with exactly that behaviour (`mapSet`, `mapGet`, `mapValues`).
* `Array.prototype.sort` is stable (ES2019); a stable sort for a total
  preorder comparator has a unique output, so we model it with the stable
  `List.insertionSort` (which is structurally recursive and hence
  executable by the kernel).
* `Math.round` rounds halves toward +∞, i.e. `round x = ⌊x + 1/2⌋`; on the
  integer millisecond difference this is `(2*(e - s) + 60000) / 120000`
  with floor division.
-/

namespace MyJournal

abbrev EventId := String

/-- Structure `StartEvent` from `src/types/event.ts`. -/
structure StartEvent where
  eventId : EventId
  timestamp : Int
  activityName : String
  tags : List String
deriving DecidableEq, Repr

/-- Structure `EndEvent` from `src/types/event.ts`. -/
structure EndEvent where
  refEventId : EventId
  timestamp : Int
  description : Option String
  moodScore : Option Int
  progress : Option Int
deriving DecidableEq, Repr

/-- Structure `MemoEvent` from `src/types/event.ts`. -/
structure MemoEvent where
  eventId : EventId
  timestamp : Int
  content : String
deriving DecidableEq, Repr

/-- The discriminated union `JournalEvent` from `src/types/event.ts`. -/
inductive JournalEvent where
  | start (e : StartEvent)
  | endE (e : EndEvent)
  | memo (e : MemoEvent)
deriving DecidableEq, Repr

/-- The derived `Task` record from `src/types/event.ts`. -/
structure Task where
  eventId : EventId
  activityName : String
  tags : List String
  startTime : Int
  endTime : Option Int
  duration : Option Int
  description : Option String
  moodScore : Option Int
  progress : Option Int
  isActive : Bool
deriving DecidableEq, Repr

def msPerDay : Int := 86400000

/-- Local calendar-day index of a local-clock millisecond timestamp
(the code compares `YYYY-MM-DD` strings built from local date components,
which is equivalent to comparing these indices). -/
def localDayOf (t : Int) : Int := t / msPerDay

/-- Function `calculateDuration` from `src/types/event.ts`:
`Math.round((end.getTime() - start.getTime()) / 60000)`, with JavaScript's
round-half-up semantics expressed by integer floor division. -/
def calculateDuration (s e : Int) : Int := (2 * (e - s) + 60000) / 120000

/-- The reconciler's `taskMap`: a JavaScript `Map` keyed by event id,
modelled as an insertion-ordered association list. -/
abbrev TaskMap := List (EventId × Task)

/-- Lookup, as JavaScript `Map.get`. -/
def mapGet (m : TaskMap) (k : EventId) : Option Task :=
  (m.find? (fun p => p.1 == k)).map (fun p => p.2)

/-- Insertion, as JavaScript `Map.set`: when the key is present its entry is replaced in place
(JavaScript `Map.set` keeps the original insertion position), otherwise a
new entry is appended at the end. -/
def mapSet : TaskMap → EventId → Task → TaskMap
  | [], k, v => [(k, v)]
  | p :: rest, k, v =>
      if p.1 == k then (k, v) :: rest else p :: mapSet rest k v

/-- Values in insertion order, as `Array.from(map.values())`. -/
def mapValues (m : TaskMap) : List Task := m.map (fun p => p.2)

/-- The fresh task created by a `START` event: `isActive = true`, no end
data yet. -/
def startTask (s : StartEvent) : Task :=
  { eventId := s.eventId
    activityName := s.activityName
    tags := s.tags
    startTime := s.timestamp
    endTime := none
    duration := none
    description := none
    moodScore := none
    progress := none
    isActive := true }

/-- The in-place mutation performed on a found task by an `END` event. -/
def endUpdate (task : Task) (e : EndEvent) : Task :=
  { task with
    endTime := some e.timestamp
    duration := some (calculateDuration task.startTime e.timestamp)
    description := e.description
    moodScore := e.moodScore
    progress := e.progress
    isActive := false }

/-- One iteration of the `for (const event of allEvents)` loop in
`eventsToTasks` (`src/hooks/useJournal.ts`). -/
def applyEvent (m : TaskMap) (ev : JournalEvent) : TaskMap :=
  match ev with
  | .start s => mapSet m s.eventId (startTask s)
  | .endE e =>
      match mapGet m e.refEventId with
      | some task => mapSet m e.refEventId (endUpdate task e)
      | none => m
  | .memo _ => m

/-- The map-building phase of `eventsToTasks` (lines 234-260 of
`src/hooks/useJournal.ts`): a single pass over `allEvents`. -/
def buildTaskMap (events : List JournalEvent) : TaskMap :=
  events.foldl applyEvent []

/-- The day-filter predicate of `eventsToTasks`: keep a task iff it is
active or its `endTime` falls on today's local calendar date. -/
def keepTask (today : Int) (t : Task) : Bool :=
  t.isActive ||
    match t.endTime with
    | some e => localDayOf e == today
    | none => false

/-- Descending-by-`startTime` comparison used by the final
`filteredTasks.sort((a, b) => b.startTime.getTime() - a.startTime.getTime())`. -/
def descLE (a b : Task) : Prop := b.startTime ≤ a.startTime

instance : DecidableRel descLE := fun a b => by
  unfold descLE; infer_instance

instance : IsTotal Task descLE :=
  ⟨fun a b => le_total b.startTime a.startTime⟩

instance : IsTrans Task descLE :=
  ⟨fun _ _ _ h h' => le_trans h' h⟩

/-- Function `eventsToTasks` from `src/hooks/useJournal.ts`.  The ambient current
date (`getTodayDateString()`) is passed explicitly as the local day index
`today`. -/
def eventsToTasks (todayEvents : List JournalEvent)
    (yesterdayEvents : List JournalEvent) (today : Int) : List Task :=
  let allEvents := yesterdayEvents ++ todayEvents
  ((mapValues (buildTaskMap allEvents)).filter (keepTask today)).insertionSort descLE

/-- The task record the loop produces when an End event `E` closes the task
created by a Start event `S` (used only to state theorems). -/
def pairedTask (S : StartEvent) (E : EndEvent) : Task :=
  { eventId := S.eventId
    activityName := S.activityName
    tags := S.tags
    startTime := S.timestamp
    endTime := some E.timestamp
    duration := some (calculateDuration S.timestamp E.timestamp)
    description := E.description
    moodScore := E.moodScore
    progress := E.progress
    isActive := false }

/-! ### Runtime view of the reconciler input

The TypeScript typing of `JournalEvent` exists only at compile time; at
runtime `eventsToTasks` receives parsed JSON and dispatches on
`event.type === 'START'` / `event.type === 'END'`, with every other shape —
including an event whose required discriminant field is missing — falling
through both branches.  `RawEvent` adds that malformed shape to the union.
-/

inductive RawEvent where
  | start (e : StartEvent)
  | endE (e : EndEvent)
  | memo (e : MemoEvent)
  | noType
deriving DecidableEq, Repr

/-- The well-formed part of a raw event (`noType` has no counterpart). -/
def toEvent : RawEvent → Option JournalEvent
  | .start s => some (.start s)
  | .endE e => some (.endE e)
  | .memo m => some (.memo m)
  | .noType => none

/-- The loop body of `eventsToTasks` as executed on runtime data: the
`if/else if` chain on `event.type` leaves any event that is neither
`'START'` nor `'END'` untouched. -/
def applyEventRaw (m : TaskMap) (ev : RawEvent) : TaskMap :=
  match ev with
  | .start s => applyEvent m (.start s)
  | .endE e => applyEvent m (.endE e)
  | .memo _ => m
  | .noType => m

/-- Function `eventsToTasks` as executed on runtime data. -/
def eventsToTasksRaw (todayEvents : List RawEvent)
    (yesterdayEvents : List RawEvent) (today : Int) : List Task :=
  let allEvents := yesterdayEvents ++ todayEvents
  ((mapValues (allEvents.foldl applyEventRaw [])).filter
      (keepTask today)).insertionSort descLE

/-! ### Interval layout engine (`src/components/VerticalTimeline.tsx`) -/

/-- Predicate `isMultiDayTask` from `src/components/VerticalTimeline.tsx`:
`toDateString()` comparison, i.e. the two local calendar dates differ. -/
def isMultiDayTask (task : Task) : Bool :=
  match task.endTime with
  | none => false
  | some e => localDayOf task.startTime != localDayOf e

/-- Function `getTodayMidnight` (midnight of the ambient current local day,
day index `today`). -/
def getTodayMidnight (today : Int) : Int := today * msPerDay

/-- The element type of `processedTasks`: the original task spread together
with the display fields (`{...task, displayStartTime, displayEndTime,
isMultiDay}`). -/
structure ProcessedTask where
  task : Task
  displayStartTime : Int
  displayEndTime : Int
  isMultiDay : Bool
deriving DecidableEq, Repr

/-- The `completedTasks.map(...)` body of `VerticalTimeline` (lines 53-74):
multi-day tasks that started before today's midnight are clipped to display
from midnight; every `Task` field is carried through unchanged.  The source
reads `task.endTime!` under the guarantee of the preceding
`tasks.filter(t => !t.isActive && t.endTime)`; the `getD` default is never
used for such tasks. -/
def processTask (todayMidnight : Int) (task : Task) : ProcessedTask :=
  let isMD := isMultiDayTask task
  let dispEnd := task.endTime.getD task.startTime
  let dispStart :=
    if isMD && decide (task.startTime < todayMidnight) then todayMidnight
    else task.startTime
  ⟨task, dispStart, dispEnd, isMD⟩

/-- A task as seen by `arrangeTasks`: its display interval, at the minute
granularity at which the engine works (`getHours`/`getMinutes` drop seconds).
`dispStart`/`dispEnd` are minutes since local midnight of the displayed day;
the payload fields irrelevant to layout are condensed into `id`. -/
structure DispTask where
  id : Nat
  dispStart : Int
  dispEnd : Int
deriving DecidableEq, Repr

/-- The sort at the top of `arrangeTasks`: by display start ascending,
ties broken by display end descending (longer task first). -/
def dispLE (a b : DispTask) : Prop :=
  a.dispStart < b.dispStart ∨ (a.dispStart = b.dispStart ∧ b.dispEnd ≤ a.dispEnd)

instance : DecidableRel dispLE := fun a b => by
  unfold dispLE; infer_instance

instance : IsTotal DispTask dispLE := by
  constructor
  intro a b
  rcases lt_trichotomy a.dispStart b.dispStart with h | h | h
  · exact Or.inl (Or.inl h)
  · rcases le_total b.dispEnd a.dispEnd with h' | h'
    · exact Or.inl (Or.inr ⟨h, h'⟩)
    · exact Or.inr (Or.inr ⟨h.symm, h'⟩)
  · exact Or.inr (Or.inl h)

instance : IsTrans DispTask dispLE := by
  constructor
  intro a b c hab hbc
  rcases hab with h | ⟨h1, h2⟩
  · rcases hbc with h' | ⟨h1', _⟩
    · exact Or.inl (h.trans h')
    · exact Or.inl (h1' ▸ h)
  · rcases hbc with h' | ⟨h1', h2'⟩
    · exact Or.inl (h1 ▸ h')
    · exact Or.inr ⟨h1.trans h1', h2'.trans h2⟩

/-- A positioned task: display interval plus the minute offsets
`startMinutes`/`endMinutes` relative to `minHour` computed in the
`sortedTasks.map(...)` of `arrangeTasks`.  (The render-only `originalIndex`
color field is omitted.) -/
structure PTask where
  id : Nat
  dispStart : Int
  dispEnd : Int
  startMinutes : Int
  endMinutes : Int
deriving DecidableEq, Repr

/-- The bound `minHour = Math.max(0, Math.min(...startHours))`, where `startHours`
are the display start hours (`getHours`, i.e. `dispStart / 60` for display
times within the day).  The component returns early when the task list is
empty, so the empty default is irrelevant. -/
def minHour (ts : List DispTask) : Int :=
  max 0 (match ts.map (fun t => t.dispStart / 60) with
         | [] => 0
         | h :: rest => rest.foldl min h)

/-- The body of the `sortedTasks.map(...)` step of `arrangeTasks`: attach
the minute offsets relative to `minHour`. -/
def toPositioned (mh : Int) (t : DispTask) : PTask :=
  { id := t.id
    dispStart := t.dispStart
    dispEnd := t.dispEnd
    startMinutes := t.dispStart - 60 * mh
    endMinutes := t.dispEnd - 60 * mh }

/-- The `sortedTasks.map(...)` step of `arrangeTasks`: sort, then compute
minute offsets relative to `minHour`. -/
def positionedTasks (ts : List DispTask) : List PTask :=
  (ts.insertionSort dispLE).map (toPositioned (minHour ts))

/-- The cluster-scan loop of `arrangeTasks` (lines 118-138): running over
the remaining tasks with the current cluster `cur` and its running maximum
end offset `ce`; a task joins the current cluster iff its start offset is
strictly below `ce`. -/
def buildClusters (cur : List PTask) (ce : Int) : List PTask → List (List PTask)
  | [] => [cur]
  | t :: rest =>
      if t.startMinutes < ce then
        buildClusters (cur ++ [t]) (max ce t.endMinutes) rest
      else
        cur :: buildClusters [t] t.endMinutes rest

/-- Grouping of the positioned tasks into maximal overlap clusters. -/
def clusters : List PTask → List (List PTask)
  | [] => []
  | t :: rest => buildClusters [t] t.endMinutes rest

/-- The greedy column scan of one cluster (lines 141-163): `cols` holds the
last task placed in each column; a task goes to the first column whose last
occupant ends no later than the task starts, else opens a new column.
Returns the `(task, column)` assignments in cluster order together with the
final column list. -/
def assignColumns (cols : List PTask) :
    List PTask → List (PTask × Nat) × List PTask
  | [] => ([], cols)
  | t :: rest =>
      match cols.findIdx? (fun c => decide (c.endMinutes ≤ t.startMinutes)) with
      | some i =>
          let r := assignColumns (cols.set i t) rest
          ((t, i) :: r.1, r.2)
      | none =>
          let r := assignColumns (cols ++ [t]) rest
          ((t, cols.length) :: r.1, r.2)

/-- A task block as returned by `arrangeTasks`: the positioned task plus its
assigned `column` and the cluster's `totalColumns`. -/
structure Arranged where
  ptask : PTask
  column : Nat
  totalColumns : Nat
deriving DecidableEq, Repr

/-- Column assignment for one cluster; `totalColumns` for every member is
the final number of columns used by the cluster. -/
def layoutCluster (cluster : List PTask) : List Arranged :=
  let r := assignColumns [] cluster
  r.1.map (fun p => ⟨p.1, p.2, r.2.length⟩)

/-- Function `arrangeTasks` (lines 93-176 of `src/components/VerticalTimeline.tsx`):
sort, position, cluster, and assign columns.  The source mutates the
positioned array in place and returns it; since clusters are contiguous
runs of the sorted order, that equals the concatenation of the processed
clusters. -/
def arrangeTasks (ts : List DispTask) : List Arranged :=
  (clusters (positionedTasks ts)).flatMap layoutCluster

/-- Open-interval overlap of two display intervals (interpreted over the
rationals: the open intervals `(s₁, e₁)` and `(s₂, e₂)` intersect iff
`max s₁ s₂ < min e₁ e₂`). -/
def overlapsD (a b : DispTask) : Prop :=
  max a.dispStart b.dispStart < min a.dispEnd b.dispEnd

instance : DecidableRel overlapsD := fun a b => by
  unfold overlapsD; infer_instance

/-- Open-interval overlap of the display intervals of two arranged blocks. -/
def overlapsA (a b : Arranged) : Prop :=
  max a.ptask.dispStart b.ptask.dispStart < min a.ptask.dispEnd b.ptask.dispEnd

instance : DecidableRel overlapsA := fun a b => by
  unfold overlapsA; infer_instance

/-- Forgetting the layout annotations of a block, back to the input task. -/
def blockTask (b : Arranged) : DispTask :=
  ⟨b.ptask.id, b.ptask.dispStart, b.ptask.dispEnd⟩

/-! ## Theorems -/

/-! ### Association-list lemmas for the reconciler's `Map` -/

theorem mapGet_nil (k : EventId) : mapGet [] k = none := rfl

theorem mapGet_cons (p : EventId × Task) (rest : TaskMap) (k : EventId) :
    mapGet (p :: rest) k = if p.1 = k then some p.2 else mapGet rest k := by
  by_cases hp : p.1 = k
  · simp [mapGet, List.find?_cons, hp]
  · simp [mapGet, List.find?_cons, hp]

theorem mapGet_mapSet_self (m : TaskMap) (k : EventId) (v : Task) :
    mapGet (mapSet m k v) k = some v := by
  induction m with
  | nil => simp [mapSet, mapGet_cons, mapGet_nil]
  | cons p rest ih =>
      by_cases hp : p.1 = k
      · simp [mapSet, hp, mapGet_cons]
      · simp [mapSet, hp, mapGet_cons, ih]

theorem mapGet_mapSet_ne (m : TaskMap) (k k' : EventId) (v : Task)
    (h : k' ≠ k) : mapGet (mapSet m k v) k' = mapGet m k' := by
  induction m with
  | nil =>
      have hk : ¬ (k = k') := fun h' => h h'.symm
      simp [mapSet, mapGet_cons, mapGet_nil, hk]
  | cons p rest ih =>
      by_cases hp : p.1 = k
      · have hk : ¬ (k = k') := fun h' => h h'.symm
        simp [mapSet, hp, mapGet_cons, hk, hp ▸ hk]
      · simp [mapSet, hp, mapGet_cons, ih]

theorem mem_of_mapGet_eq_some (m : TaskMap) (k : EventId) (t : Task)
    (h : mapGet m k = some t) : (k, t) ∈ m := by
  induction m with
  | nil => simp [mapGet_nil] at h
  | cons p rest ih =>
      rw [mapGet_cons] at h
      by_cases hp : p.1 = k
      · simp only [hp, if_true, Option.some.injEq] at h
        have : p = (k, t) := by
          obtain ⟨p1, p2⟩ := p
          simp only at hp h
          simp [hp, h]
        simp [this]
      · simp only [hp, if_false] at h
        exact List.mem_cons_of_mem _ (ih h)

theorem mem_mapSet (m : TaskMap) (k0 : EventId) (v0 : Task)
    (k : EventId) (v : Task) (h : (k, v) ∈ mapSet m k0 v0) :
    (k = k0 ∧ v = v0) ∨ (k, v) ∈ m := by
  induction m with
  | nil =>
      simp only [mapSet, List.mem_singleton] at h
      exact Or.inl ⟨congrArg Prod.fst h, congrArg Prod.snd h⟩
  | cons p rest ih =>
      by_cases hp : p.1 = k0
      · simp only [mapSet, hp, beq_self_eq_true, if_true] at h
        rcases List.mem_cons.mp h with h' | h'
        · exact Or.inl ⟨congrArg Prod.fst h', congrArg Prod.snd h'⟩
        · exact Or.inr (List.mem_cons_of_mem _ h')
      · have hp' : (p.1 == k0) = false := by simpa using hp
        simp only [mapSet, hp', Bool.false_eq_true, if_false] at h
        rcases List.mem_cons.mp h with h' | h'
        · exact Or.inr (h' ▸ List.mem_cons_self _ _)
        · rcases ih h' with h'' | h''
          · exact Or.inl h''
          · exact Or.inr (List.mem_cons_of_mem _ h'')

/-! ### Preservation lemmas for the reconciliation fold -/

/-- A Start event installs its fresh task under its event id. -/
theorem mapGet_applyEvent_start (m : TaskMap) (s : StartEvent) :
    mapGet (applyEvent m (JournalEvent.start s)) s.eventId =
      some (startTask s) := by
  simp [applyEvent, mapGet_mapSet_self]

/-- An End event whose reference is present updates that entry in place. -/
theorem mapGet_applyEvent_endE (m : TaskMap) (e : EndEvent) (t : Task)
    (h : mapGet m e.refEventId = some t) :
    mapGet (applyEvent m (JournalEvent.endE e)) e.refEventId =
      some (endUpdate t e) := by
  simp [applyEvent, h, mapGet_mapSet_self]

/-- An event that is neither a Start with id `k` nor an End referencing `k`
leaves the map's entry at `k` unchanged. -/
theorem mapGet_applyEvent_other (m : TaskMap) (ev : JournalEvent)
    (k : EventId)
    (hS : ∀ S, ev = JournalEvent.start S → S.eventId ≠ k)
    (hE : ∀ E, ev = JournalEvent.endE E → E.refEventId ≠ k) :
    mapGet (applyEvent m ev) k = mapGet m k := by
  cases ev with
  | start s =>
      exact mapGet_mapSet_ne _ _ _ _ (fun h => hS s rfl h.symm)
  | endE e =>
      rcases hm : mapGet m e.refEventId with _ | t
      · simp [applyEvent, hm]
      · simp only [applyEvent, hm]
        exact mapGet_mapSet_ne _ _ _ _ (fun h => hE e rfl h.symm)
  | memo _ => rfl

/-- Folding a run of events none of which starts id `k` or references `k`
leaves the entry at `k` unchanged. -/
theorem mapGet_foldl_other (l : List JournalEvent) (m : TaskMap)
    (k : EventId)
    (hS : ∀ S, JournalEvent.start S ∈ l → S.eventId ≠ k)
    (hE : ∀ E, JournalEvent.endE E ∈ l → E.refEventId ≠ k) :
    mapGet (l.foldl applyEvent m) k = mapGet m k := by
  induction l generalizing m with
  | nil => rfl
  | cons ev rest ih =>
      rw [List.foldl_cons,
        ih _ (fun S h => hS S (List.mem_cons_of_mem _ h))
          (fun E h => hE E (List.mem_cons_of_mem _ h)),
        mapGet_applyEvent_other m ev k
          (fun S h => hS S (h ▸ List.mem_cons_self _ _))
          (fun E h => hE E (h ▸ List.mem_cons_self _ _))]

/-- The fields of a task that only a Start event can write. -/
def sameStartFields (a b : Task) : Prop :=
  a.eventId = b.eventId ∧ a.activityName = b.activityName ∧
    a.tags = b.tags ∧ a.startTime = b.startTime

/-- Folding a run of events that contains no Start with id `k` keeps an
entry at `k` present, with its Start-written fields unchanged (End events
referencing `k` may rewrite the End-written fields, nothing else). -/
theorem mapGet_foldl_keeps_start_fields (l : List JournalEvent)
    (m : TaskMap) (k : EventId) (t : Task)
    (hS : ∀ S, JournalEvent.start S ∈ l → S.eventId ≠ k)
    (h : mapGet m k = some t) :
    ∃ u, mapGet (l.foldl applyEvent m) k = some u ∧ sameStartFields u t := by
  induction l generalizing m t with
  | nil => exact ⟨t, h, rfl, rfl, rfl, rfl⟩
  | cons ev rest ih =>
      rw [List.foldl_cons]
      have hrest : ∀ S, JournalEvent.start S ∈ rest → S.eventId ≠ k :=
        fun S hmem => hS S (List.mem_cons_of_mem _ hmem)
      cases ev with
      | start s =>
          have hne : s.eventId ≠ k := hS s (List.mem_cons_self _ _)
          have : mapGet (applyEvent m (.start s)) k = some t := by
            simpa [applyEvent,
              mapGet_mapSet_ne m s.eventId k _ (fun h' => hne h'.symm)] using h
          exact ih _ _ hrest this
      | endE e =>
          by_cases he : e.refEventId = k
          · subst he
            obtain ⟨u, hu, husf⟩ :=
              ih _ _ hrest (mapGet_applyEvent_endE m e t h)
            exact ⟨u, hu, husf.1.trans rfl, husf.2.1.trans rfl,
              husf.2.2.1.trans rfl, husf.2.2.2.trans rfl⟩
          · have : mapGet (applyEvent m (.endE e)) k = some t := by
              rcases hm : mapGet m e.refEventId with _ | t'
              · simpa [applyEvent, hm] using h
              · simpa [applyEvent, hm,
                  mapGet_mapSet_ne m e.refEventId k _
                    (fun h' => he h'.symm)] using h
            exact ih _ _ hrest this
      | memo mo => exact ih _ _ hrest (by simpa [applyEvent] using h)

/-! ### Output membership -/

/-- Membership in the reconciler's output is membership in the built map's
values plus passing the day filter (the final sort is a permutation). -/
theorem mem_eventsToTasks_iff (te ye : List JournalEvent) (d : Int)
    (t : Task) :
    t ∈ eventsToTasks te ye d ↔
      t ∈ mapValues (buildTaskMap (ye ++ te)) ∧ keepTask d t = true := by
  unfold eventsToTasks
  rw [(List.perm_insertionSort descLE _).mem_iff, List.mem_filter]

/-- The day filter, unfolded: keep a task iff it is active or ends on the
current local calendar day. -/
theorem keepTask_iff (d : Int) (t : Task) :
    keepTask d t = true ↔
      (t.isActive = true ∨ ∃ e, t.endTime = some e ∧ localDayOf e = d) := by
  unfold keepTask
  rcases ht : t.endTime with _ | e <;> simp [ht]

/-- C1 (amended): if Start `S` precedes its matching End `E` in the
concatenated input `yesterdayEvents ++ todayEvents`, no later Start reuses
`S`'s event id, and no End after `E` references it, then the reconciled
task for `S` is exactly the closed task `pairedTask S E` — `isActive =
false` and `duration = round((E.timestamp - S.timestamp)/60000)` — and it
appears in the output whenever `E` falls on the current day.  (The claim's
"in any input order" fails: the single forward pass drops an End processed
before its Start, see the counterexample.) -/
theorem claim1_pairing (te ye l1 l2 l3 : List JournalEvent) (d : Int)
    (S : StartEvent) (E : EndEvent)
    (hsplit : ye ++ te =
      l1 ++ JournalEvent.start S :: (l2 ++ JournalEvent.endE E :: l3))
    (href : E.refEventId = S.eventId)
    (hS2 : ∀ S2, JournalEvent.start S2 ∈ l2 ++ l3 →
      S2.eventId ≠ S.eventId)
    (hE3 : ∀ E3, JournalEvent.endE E3 ∈ l3 → E3.refEventId ≠ S.eventId) :
    mapGet (buildTaskMap (ye ++ te)) S.eventId = some (pairedTask S E) ∧
      (localDayOf E.timestamp = d → pairedTask S E ∈ eventsToTasks te ye d) := by
  have hmap : mapGet (buildTaskMap (ye ++ te)) S.eventId =
      some (pairedTask S E) := by
    unfold buildTaskMap
    rw [hsplit, List.foldl_append, List.foldl_cons, List.foldl_append,
      List.foldl_cons]
    set m1 := List.foldl applyEvent [] l1 with hm1
    obtain ⟨u, hu, husf⟩ :=
      mapGet_foldl_keeps_start_fields l2 _ S.eventId _
        (fun S2 h => hS2 S2 (List.mem_append_left _ h))
        (mapGet_applyEvent_start m1 S)
    obtain ⟨hue, hua, hut, hus⟩ := husf
    simp only [startTask] at hue hua hut hus
    have hfind : mapGet (List.foldl applyEvent (applyEvent m1
        (JournalEvent.start S)) l2) E.refEventId = some u := by
      rw [href]; exact hu
    have hstep : mapGet (applyEvent (List.foldl applyEvent (applyEvent m1
        (JournalEvent.start S)) l2) (JournalEvent.endE E)) S.eventId =
        some (endUpdate u E) := by
      rw [← href]
      exact mapGet_applyEvent_endE _ E u hfind
    have hfinal : endUpdate u E = pairedTask S E := by
      obtain ⟨f1, f2, f3, f4, f5, f6, f7, f8, f9, f10⟩ := u
      simp only at hue hua hut hus
      simp [endUpdate, pairedTask, hue, hua, hut, hus]
    rw [mapGet_foldl_other l3 _ S.eventId
      (fun S2 h => hS2 S2 (List.mem_append_right _ h)) hE3, hstep, hfinal]
  refine ⟨hmap, fun hd => ?_⟩
  rw [mem_eventsToTasks_iff]
  constructor
  · exact List.mem_map.mpr ⟨(S.eventId, pairedTask S E),
      mem_of_mapGet_eq_some _ _ _ hmap, rfl⟩
  · rw [keepTask_iff]
    exact Or.inr ⟨E.timestamp, rfl, hd⟩

/-- C1 (counterexample to the claim as stated): when the End event comes
before its Start in the input array, the single forward pass silently drops
it — the reconciled task stays `isActive = true` with no duration, not
`isActive = false` with `duration = 10`. -/
theorem claim1_counterexample :
    eventsToTasks
        [JournalEvent.endE ⟨"a", 600000, none, none, none⟩,
          JournalEvent.start ⟨"a", 0, "work", []⟩] [] 0 =
      [{ eventId := "a", activityName := "work", tags := [], startTime := 0,
         endTime := none, duration := none, description := none,
         moodScore := none, progress := none, isActive := true }] := by
  decide

/-- C1 witness. -/
theorem claim1_pairing_witness :
    mapGet (buildTaskMap ([] ++
        [JournalEvent.start ⟨"w1", 0, "run", []⟩,
          JournalEvent.endE ⟨"w1", 600000, none, none, none⟩])) "w1" =
      some (pairedTask ⟨"w1", 0, "run", []⟩
        ⟨"w1", 600000, none, none, none⟩) ∧
    pairedTask ⟨"w1", 0, "run", []⟩ ⟨"w1", 600000, none, none, none⟩ ∈
      eventsToTasks
        [JournalEvent.start ⟨"w1", 0, "run", []⟩,
          JournalEvent.endE ⟨"w1", 600000, none, none, none⟩] [] 0 := by
  have h := claim1_pairing
    [JournalEvent.start ⟨"w1", 0, "run", []⟩,
      JournalEvent.endE ⟨"w1", 600000, none, none, none⟩]
    [] [] [] [] 0 ⟨"w1", 0, "run", []⟩ ⟨"w1", 600000, none, none, none⟩
    rfl rfl (by simp) (by simp)
  exact ⟨h.1, h.2 (by decide)⟩

/-- C3: the reconciler's output contains exactly the reconciled tasks that
are still active or end on the current local calendar day; concretely, a
Start at 23:00 the prior day closed by an End at 01:00 on the reference
day yields exactly one output task, closed with duration 120, while a task
that started and ended on the prior day is excluded. -/
theorem claim3_day_filtering :
    (∀ (te ye : List JournalEvent) (d : Int) (t : Task),
      t ∈ eventsToTasks te ye d ↔
        (t ∈ mapValues (buildTaskMap (ye ++ te)) ∧
          (t.isActive = true ∨ ∃ e, t.endTime = some e ∧ localDayOf e = d))) ∧
    eventsToTasks [JournalEvent.endE ⟨"s", 3600000, none, none, none⟩]
        [JournalEvent.start ⟨"s", -3600000, "sleep", []⟩,
          JournalEvent.start ⟨"p", -50400000, "prior", []⟩,
          JournalEvent.endE ⟨"p", -46800000, none, none, none⟩] 0 =
      [{ eventId := "s", activityName := "sleep", tags := [],
         startTime := -3600000, endTime := some 3600000,
         duration := some 120, description := none, moodScore := none,
         progress := none, isActive := false }] := by
  constructor
  · intro te ye d t
    rw [mem_eventsToTasks_iff, keepTask_iff]
  · decide

/-- C8: the reconciler's output is sorted by `startTime` descending. -/
theorem claim8_sorted_desc (te ye : List JournalEvent) (d : Int) :
    List.Pairwise (fun a b : Task => b.startTime ≤ a.startTime)
      (eventsToTasks te ye d) := by
  unfold eventsToTasks
  exact List.sorted_insertionSort descLE _

/-! ### Key/value invariants of the built map (for C6) -/

/-- Every entry of the evolving map stores a task whose `eventId` equals
its key. -/
theorem eventId_eq_key_foldl (l : List JournalEvent) (m : TaskMap)
    (hm : ∀ p ∈ m, (p.2 : Task).eventId = p.1) :
    ∀ p ∈ l.foldl applyEvent m, (p.2 : Task).eventId = p.1 := by
  induction l generalizing m with
  | nil => exact hm
  | cons ev rest ih =>
      rw [List.foldl_cons]
      refine ih _ ?_
      rintro ⟨k, v⟩ hp
      cases ev with
      | start s =>
          rcases mem_mapSet _ _ _ _ _ hp with ⟨h1, h2⟩ | h
          · simp [h1, h2, startTask]
          · exact hm _ h
      | endE e =>
          rcases hg : mapGet m e.refEventId with _ | t
          · exact hm _ (by simpa [applyEvent, hg] using hp)
          · have hp' : (k, v) ∈ mapSet m e.refEventId (endUpdate t e) := by
              simpa [applyEvent, hg] using hp
            rcases mem_mapSet _ _ _ _ _ hp' with ⟨h1, h2⟩ | h
            · have ht : t.eventId = e.refEventId :=
                hm _ (mem_of_mapGet_eq_some _ _ _ hg)
              simp [h1, h2, endUpdate, ht]
            · exact hm _ h
      | memo _ => exact hm _ hp

/-- Every key of the evolving map was either present initially or written
by a Start event of the log. -/
theorem key_from_start_foldl (l : List JournalEvent) (m : TaskMap) :
    ∀ p ∈ l.foldl applyEvent m,
      (∃ v, ((p : EventId × Task).1, v) ∈ m) ∨
        ∃ S, JournalEvent.start S ∈ l ∧ S.eventId = p.1 := by
  induction l generalizing m with
  | nil => exact fun p hp => Or.inl ⟨p.2, hp⟩
  | cons ev rest ih =>
      rw [List.foldl_cons]
      rintro ⟨k, v⟩ hp
      rcases ih (applyEvent m ev) ⟨k, v⟩ hp with ⟨v', hv'⟩ | ⟨S, hS, hSk⟩
      · cases ev with
        | start s =>
            rcases mem_mapSet _ _ _ _ _ hv' with ⟨h1, _⟩ | h
            · exact Or.inr ⟨s, List.mem_cons_self _ _, h1.symm⟩
            · exact Or.inl ⟨v', h⟩
        | endE e =>
            rcases hg : mapGet m e.refEventId with _ | t
            · exact Or.inl ⟨v', by simpa [applyEvent, hg] using hv'⟩
            · have hv'' : (k, v') ∈ mapSet m e.refEventId (endUpdate t e) := by
                simpa [applyEvent, hg] using hv'
              rcases mem_mapSet _ _ _ _ _ hv'' with ⟨h1, _⟩ | h
              · exact Or.inl ⟨t, h1 ▸ mem_of_mapGet_eq_some _ _ _ hg⟩
              · exact Or.inl ⟨v', h⟩
        | memo _ => exact Or.inl ⟨v', hv'⟩
      · exact Or.inr ⟨S, List.mem_cons_of_mem _ hS, hSk⟩

/-- Keys of `mapSet` are the old keys plus possibly the new one. -/
theorem mem_keys_mapSet (m : TaskMap) (k0 : EventId) (v0 : Task)
    (k : EventId) (h : k ∈ (mapSet m k0 v0).map Prod.fst) :
    k = k0 ∨ k ∈ m.map Prod.fst := by
  obtain ⟨p, hp, hpk⟩ := List.mem_map.mp h
  obtain ⟨k', v'⟩ := p
  rcases mem_mapSet _ _ _ _ _ hp with ⟨h1, _⟩ | h'
  · exact Or.inl (hpk ▸ h1)
  · exact Or.inr (List.mem_map.mpr ⟨(k', v'), h', hpk⟩)

/-- Insertion preserves distinctness of keys. -/
theorem keys_nodup_mapSet (m : TaskMap) (k : EventId) (v : Task)
    (h : (m.map Prod.fst).Nodup) : ((mapSet m k v).map Prod.fst).Nodup := by
  induction m with
  | nil => simp [mapSet]
  | cons p rest ih =>
      by_cases hp : p.1 = k
      · simpa [mapSet, hp] using h
      · have hp' : (p.1 == k) = false := by simpa using hp
        simp only [mapSet, hp', Bool.false_eq_true, if_false, List.map_cons,
          List.nodup_cons] at *
        refine ⟨fun hmem => ?_, ih h.2⟩
        rcases mem_keys_mapSet _ _ _ _ hmem with h1 | h1
        · exact hp h1
        · exact h.1 h1

/-- The reconciliation fold preserves distinctness of keys. -/
theorem keys_nodup_foldl (l : List JournalEvent) (m : TaskMap)
    (h : (m.map Prod.fst).Nodup) :
    ((l.foldl applyEvent m).map Prod.fst).Nodup := by
  induction l generalizing m with
  | nil => exact h
  | cons ev rest ih =>
      rw [List.foldl_cons]
      refine ih _ ?_
      cases ev with
      | start s => exact keys_nodup_mapSet _ _ _ h
      | endE e =>
          rcases hg : mapGet m e.refEventId with _ | t
          · simpa [applyEvent, hg] using h
          · simpa [applyEvent, hg] using keys_nodup_mapSet m e.refEventId
              (endUpdate t e) h
      | memo _ => exact h

/-- In a map with distinct keys, a key determines its value. -/
theorem value_unique_of_keys_nodup (m : TaskMap)
    (hnd : (m.map Prod.fst).Nodup) (k : EventId) (v v' : Task)
    (h : (k, v) ∈ m) (h' : (k, v') ∈ m) : v = v' := by
  induction m with
  | nil => simp at h
  | cons p rest ih =>
      simp only [List.map_cons, List.nodup_cons] at hnd
      rcases List.mem_cons.mp h with h1 | h1
      · rcases List.mem_cons.mp h' with h2 | h2
        · rw [← h1] at h2
          exact congrArg Prod.snd h2.symm
        · have hk : k = p.1 := congrArg Prod.fst h1
          exact absurd (List.mem_map.mpr ⟨(k, v'), h2, hk⟩) hnd.1
      · rcases List.mem_cons.mp h' with h2 | h2
        · have hk : k = p.1 := congrArg Prod.fst h2
          exact absurd (List.mem_map.mpr ⟨(k, v), h1, hk⟩) hnd.1
        · exact ih hnd.2 h1 h2

/-- An entry at `k` that is (or becomes) a fresh active task stays an
active, duration-free task as long as no End event references `k`. -/
theorem mapGet_foldl_active (l : List JournalEvent) (m : TaskMap)
    (k : EventId)
    (hE : ∀ E, JournalEvent.endE E ∈ l → E.refEventId ≠ k)
    (h : (∃ S, JournalEvent.start S ∈ l ∧ S.eventId = k) ∨
      (∃ t, mapGet m k = some t ∧ t.isActive = true ∧ t.duration = none)) :
    ∃ t, mapGet (l.foldl applyEvent m) k = some t ∧ t.isActive = true ∧
      t.duration = none := by
  induction l generalizing m with
  | nil =>
      rcases h with ⟨S, hS, _⟩ | ht
      · simp at hS
      · exact ht
  | cons ev rest ih =>
      rw [List.foldl_cons]
      have hErest : ∀ E, JournalEvent.endE E ∈ rest → E.refEventId ≠ k :=
        fun E hmem => hE E (List.mem_cons_of_mem _ hmem)
      cases ev with
      | start s =>
          by_cases hs : s.eventId = k
          · refine ih _ hErest (Or.inr ⟨startTask s, ?_, rfl, rfl⟩)
            rw [← hs]
            exact mapGet_applyEvent_start m s
          · refine ih _ hErest ?_
            rcases h with ⟨S, hS, hSk⟩ | ⟨t, ht, ha, hd⟩
            · rcases List.mem_cons.mp hS with h1 | h1
              · exfalso
                have hSs : S = s := by injection h1
                exact hs (hSs ▸ hSk)
              · exact Or.inl ⟨S, h1, hSk⟩
            · refine Or.inr ⟨t, ?_, ha, hd⟩
              have hother : mapGet (applyEvent m (JournalEvent.start s)) k =
                  mapGet m k := by
                refine mapGet_applyEvent_other m _ k ?_ ?_
                · intro S2 hS2
                  have hs2 : S2 = s := by injection hS2.symm
                  exact hs2 ▸ hs
                · intro E2 hE2
                  exact JournalEvent.noConfusion hE2
              rw [hother]
              exact ht
      | endE e =>
          have hne : e.refEventId ≠ k := hE e (List.mem_cons_self _ _)
          have hunch : mapGet (applyEvent m (JournalEvent.endE e)) k =
              mapGet m k := by
            refine mapGet_applyEvent_other m _ k ?_ ?_
            · intro S2 hS2
              exact JournalEvent.noConfusion hS2
            · intro E2 hE2
              have he2 : e = E2 := by injection hE2
              exact he2 ▸ hne
          refine ih _ hErest ?_
          rcases h with ⟨S, hS, hSk⟩ | ⟨t, ht, ha, hd⟩
          · rcases List.mem_cons.mp hS with h1 | h1
            · simp at h1
            · exact Or.inl ⟨S, h1, hSk⟩
          · exact Or.inr ⟨t, hunch ▸ ht, ha, hd⟩
      | memo mo =>
          refine ih _ hErest ?_
          rcases h with ⟨S, hS, hSk⟩ | ⟨t, ht, ha, hd⟩
          · rcases List.mem_cons.mp hS with h1 | h1
            · simp at h1
            · exact Or.inl ⟨S, h1, hSk⟩
          · exact Or.inr ⟨t, ht, ha, hd⟩

/-- C6: empty input gives an empty output and no error; every output task
originates from a Start event of the input (so an End whose reference
matches no Start produces no task); a Start with no matching End produces
exactly one task, active and without a duration. -/
theorem claim6_orphan_tolerance :
    (∀ d : Int, eventsToTasks [] [] d = []) ∧
    (∀ (te ye : List JournalEvent) (d : Int) (t : Task),
      t ∈ eventsToTasks te ye d →
        ∃ S, JournalEvent.start S ∈ ye ++ te ∧ S.eventId = t.eventId) ∧
    (∀ (te ye : List JournalEvent) (d : Int) (S : StartEvent),
      JournalEvent.start S ∈ ye ++ te →
      (∀ E, JournalEvent.endE E ∈ ye ++ te → E.refEventId ≠ S.eventId) →
      ∃ t, t ∈ eventsToTasks te ye d ∧ t.eventId = S.eventId ∧
        t.isActive = true ∧ t.duration = none ∧
        ∀ u, u ∈ eventsToTasks te ye d → u.eventId = S.eventId → u = t) := by
  refine ⟨fun d => rfl, ?_, ?_⟩
  · intro te ye d t ht
    have hv := ((mem_eventsToTasks_iff te ye d t).mp ht).1
    obtain ⟨p, hp, hpt⟩ := List.mem_map.mp hv
    rcases key_from_start_foldl (ye ++ te) [] p hp with ⟨v, hv'⟩ | ⟨S, hS, hSk⟩
    · simp at hv'
    · have hid := eventId_eq_key_foldl (ye ++ te) [] (by simp) p hp
      exact ⟨S, hS, by rw [hSk, ← hid, hpt]⟩
  · intro te ye d S hS hE
    obtain ⟨t, hget, ha, hd⟩ :=
      mapGet_foldl_active (ye ++ te) [] S.eventId hE (Or.inl ⟨S, hS, rfl⟩)
    have hmem : (S.eventId, t) ∈ buildTaskMap (ye ++ te) :=
      mem_of_mapGet_eq_some _ _ _ hget
    have hid : t.eventId = S.eventId :=
      eventId_eq_key_foldl (ye ++ te) [] (by simp) _ hmem
    have htout : t ∈ eventsToTasks te ye d := by
      rw [mem_eventsToTasks_iff]
      refine ⟨List.mem_map.mpr ⟨(S.eventId, t), hmem, rfl⟩, ?_⟩
      rw [keepTask_iff]
      exact Or.inl ha
    refine ⟨t, htout, hid, ha, hd, ?_⟩
    intro u hu hid'
    have hv := ((mem_eventsToTasks_iff te ye d u).mp hu).1
    obtain ⟨p, hp, hpt⟩ := List.mem_map.mp hv
    obtain ⟨k', v'⟩ := p
    have hkey : k' = S.eventId := by
      have h' := eventId_eq_key_foldl (ye ++ te) [] (by simp) _ hp
      simp only at h' hpt
      rw [← h', hpt, hid']
    rw [hkey] at hp
    simp only at hpt
    rw [hpt] at hp
    exact value_unique_of_keys_nodup _ (keys_nodup_foldl _ [] (by simp))
      S.eventId u t hp hmem

/-- C6 witness. -/
theorem claim6_orphan_tolerance_witness :
    ∃ t, t ∈ eventsToTasks [JournalEvent.start ⟨"w6", 0, "solo", []⟩] [] 0 ∧
      t.eventId = "w6" ∧ t.isActive = true ∧ t.duration = none ∧
      ∀ u, u ∈ eventsToTasks [JournalEvent.start ⟨"w6", 0, "solo", []⟩] [] 0 →
        u.eventId = "w6" → u = t :=
  claim6_orphan_tolerance.2.2 [JournalEvent.start ⟨"w6", 0, "solo", []⟩] [] 0
    ⟨"w6", 0, "solo", []⟩ (by simp) (by simp)

/-- Folding the runtime loop body over raw events is folding the typed loop
body over the well-formed events: malformed events are simply skipped. -/
theorem foldl_applyEventRaw (l : List RawEvent) (m : TaskMap) :
    l.foldl applyEventRaw m = (l.filterMap toEvent).foldl applyEvent m := by
  induction l generalizing m with
  | nil => rfl
  | cons r rest ih =>
      cases r <;> simp [List.foldl_cons, List.filterMap_cons, toEvent,
        applyEventRaw, applyEvent, ih]

/-- C7 (amended): malformed events are silently dropped — the runtime
reconciler computes exactly what the typed reconciler computes on the
well-formed events, returning a normal task list and never an error. -/
theorem claim7_malformed_silently_skipped (te ye : List RawEvent) (d : Int) :
    eventsToTasksRaw te ye d =
      eventsToTasks (te.filterMap toEvent) (ye.filterMap toEvent) d := by
  simp only [eventsToTasksRaw, eventsToTasks, buildTaskMap,
    foldl_applyEventRaw, List.filterMap_append]

/-- C7 (counterexample to the claim as stated): an event missing its
discriminant field is tolerated silently — the reconciler returns a normal
(here empty) task list, and inserting such an event into a well-formed log
leaves the output unchanged; no error is signalled to the caller. -/
theorem claim7_counterexample :
    eventsToTasksRaw [RawEvent.noType] [] 0 = [] ∧
    eventsToTasksRaw
        [RawEvent.start ⟨"c7", 0, "reading", []⟩, RawEvent.noType,
          RawEvent.endE ⟨"c7", 600000, none, none, none⟩] [] 0 =
      eventsToTasksRaw
        [RawEvent.start ⟨"c7", 0, "reading", []⟩,
          RawEvent.endE ⟨"c7", 600000, none, none, none⟩] [] 0 ∧
    eventsToTasksRaw
        [RawEvent.start ⟨"c7", 0, "reading", []⟩, RawEvent.noType,
          RawEvent.endE ⟨"c7", 600000, none, none, none⟩] [] 0 ≠ [] := by
  refine ⟨by decide, by decide, by decide⟩

/-! ### Column-assignment lemmas for the layout engine -/

/-- Every assigned task comes from the processed cluster. -/
theorem assignColumns_fst_mem (cols l : List PTask) :
    ∀ p ∈ (assignColumns cols l).1, p.1 ∈ l := by
  induction l generalizing cols with
  | nil => simp [assignColumns]
  | cons t rest ih =>
      intro p hp
      rcases hf : cols.findIdx?
          (fun c => decide (c.endMinutes ≤ t.startMinutes)) with _ | i <;>
        simp only [assignColumns, hf] at hp <;>
        rcases List.mem_cons.mp hp with h | h
      · exact h ▸ List.mem_cons_self _ _
      · exact List.mem_cons_of_mem _ (ih _ _ h)
      · exact h ▸ List.mem_cons_self _ _
      · exact List.mem_cons_of_mem _ (ih _ _ h)

/-- The assignments list the cluster's tasks in order. -/
theorem assignColumns_map_fst (cols l : List PTask) :
    ((assignColumns cols l).1).map Prod.fst = l := by
  induction l generalizing cols with
  | nil => simp [assignColumns]
  | cons t rest ih =>
      rcases hf : cols.findIdx?
          (fun c => decide (c.endMinutes ≤ t.startMinutes)) with _ | i <;>
        simp only [assignColumns, hf, List.map_cons] <;> rw [ih]

/-- The column list never shrinks. -/
theorem assignColumns_length_le (cols l : List PTask) :
    cols.length ≤ (assignColumns cols l).2.length := by
  induction l generalizing cols with
  | nil => simp [assignColumns]
  | cons t rest ih =>
      rcases hf : cols.findIdx?
          (fun c => decide (c.endMinutes ≤ t.startMinutes)) with _ | i <;>
        simp only [assignColumns, hf]
      · have := ih (cols ++ [t])
        simp only [List.length_append, List.length_cons, List.length_nil] at this
        omega
      · have := ih (cols.set i t)
        simpa using this

/-- Every assigned column index is below the final number of columns. -/
theorem assignColumns_col_lt (cols l : List PTask) :
    ∀ p ∈ (assignColumns cols l).1, p.2 < (assignColumns cols l).2.length := by
  induction l generalizing cols with
  | nil => simp [assignColumns]
  | cons t rest ih =>
      intro p hp
      rcases hf : cols.findIdx?
          (fun c => decide (c.endMinutes ≤ t.startMinutes)) with _ | i <;>
        simp only [assignColumns, hf] at hp ⊢ <;>
        rcases List.mem_cons.mp hp with h | h
      · have hlen := assignColumns_length_le (cols ++ [t]) rest
        simp only [List.length_append, List.length_cons, List.length_nil]
          at hlen
        have : p.2 = cols.length := congrArg Prod.snd h
        omega
      · exact ih _ _ h
      · obtain ⟨hi, -, -⟩ := List.findIdx?_eq_some_iff_getElem.mp hf
        have hlen := assignColumns_length_le (cols.set i t) rest
        simp only [List.length_set] at hlen
        have : p.2 = i := congrArg Prod.snd h
        omega
      · exact ih _ _ h

/-- The core safety invariant of the greedy column scan, for a cluster
sorted by start offset: (1) two assignments to the same column are
separated in time — the earlier task ends no later than the later one
starts; (2) each assignment is separated from the initial occupant of its
column. -/
theorem assignColumns_invariant (cols l : List PTask)
    (hsort : l.Pairwise (fun a b => a.startMinutes ≤ b.startMinutes)) :
    (assignColumns cols l).1.Pairwise
        (fun a b => a.2 = b.2 → a.1.endMinutes ≤ b.1.startMinutes) ∧
    ∀ p ∈ (assignColumns cols l).1, ∀ c : PTask, cols[p.2]? = some c →
      c.endMinutes ≤ p.1.startMinutes := by
  induction l generalizing cols with
  | nil => simp [assignColumns]
  | cons t rest ih =>
      obtain ⟨hts, hrest⟩ := List.pairwise_cons.mp hsort
      rcases hf : cols.findIdx?
          (fun c => decide (c.endMinutes ≤ t.startMinutes)) with _ | i
      · obtain ⟨ih1, ih2⟩ := ih (cols ++ [t]) hrest
        constructor
        · simp only [assignColumns, hf]
          refine List.Pairwise.cons ?_ ih1
          intro b hb hcol
          refine ih2 b hb t ?_
          have hcol' : cols.length = b.2 := hcol
          rw [← hcol']
          exact List.getElem?_concat_length cols t
        · intro p hp c hc
          simp only [assignColumns, hf] at hp
          rcases List.mem_cons.mp hp with h | h
          · exfalso
            have hp2 : p.2 = cols.length := congrArg Prod.snd h
            rw [hp2] at hc
            simp at hc
          · have hp2 : p.2 < cols.length := by
              have := (List.getElem?_eq_some_iff.mp hc).1
              exact this
            have : (cols ++ [t])[p.2]? = some c := by
              rw [List.getElem?_append_left hp2]
              exact hc
            exact ih2 p h c this
      · obtain ⟨hi, hpi, -⟩ := List.findIdx?_eq_some_iff_getElem.mp hf
        have hcit : cols[i].endMinutes ≤ t.startMinutes :=
          of_decide_eq_true hpi
        obtain ⟨ih1, ih2⟩ := ih (cols.set i t) hrest
        constructor
        · simp only [assignColumns, hf]
          refine List.Pairwise.cons ?_ ih1
          intro b hb hcol
          refine ih2 b hb t ?_
          have hcol' : i = b.2 := hcol
          rw [← hcol']
          exact List.getElem?_set_self hi
        · intro p hp c hc
          simp only [assignColumns, hf] at hp
          rcases List.mem_cons.mp hp with h | h
          · have hp2 : p.2 = i := congrArg Prod.snd h
            have hp1 : p.1 = t := congrArg Prod.fst h
            rw [hp2] at hc
            rw [List.getElem?_eq_getElem hi] at hc
            have hcc : cols[i] = c := Option.some.inj hc
            rw [hp1, ← hcc]
            exact hcit
          · by_cases hpi2 : p.2 = i
            · rw [hpi2, List.getElem?_eq_getElem hi] at hc
              have hcc : cols[i] = c := Option.some.inj hc
              have hmem : p.1 ∈ rest := assignColumns_fst_mem _ _ p h
              have h1 : t.startMinutes ≤ p.1.startMinutes := hts _ hmem
              rw [← hcc]
              omega
            · refine ih2 p h c ?_
              rw [List.getElem?_set_ne (fun h' => hpi2 h'.symm)]
              exact hc

/-! ### Cluster lemmas -/

/-- The clusters concatenate back to the scanned list. -/
theorem buildClusters_flatten (l cur : List PTask) (ce : Int) :
    (buildClusters cur ce l).flatten = cur ++ l := by
  induction l generalizing cur ce with
  | nil => simp [buildClusters]
  | cons t rest ih =>
      by_cases h : t.startMinutes < ce <;>
        simp [buildClusters, h, ih, List.append_assoc]

/-- Clustering partitions the positioned list. -/
theorem clusters_flatten (l : List PTask) : (clusters l).flatten = l := by
  cases l with
  | nil => rfl
  | cons t rest =>
      simpa [clusters] using buildClusters_flatten rest [t] t.endMinutes

/-- A member of a cluster is a member of the clustered list. -/
theorem mem_of_mem_clusters {l cl : List PTask} {x : PTask}
    (hcl : cl ∈ clusters l) (hx : x ∈ cl) : x ∈ l := by
  rw [← clusters_flatten l]
  exact List.mem_flatten_of_mem hcl hx

/-- Any pairwise property of the scanned list restricts to each cluster. -/
theorem buildClusters_pairwise {R : PTask → PTask → Prop}
    (l : List PTask) (cur : List PTask) (ce : Int)
    (h : List.Pairwise R (cur ++ l)) :
    ∀ cl ∈ buildClusters cur ce l, List.Pairwise R cl := by
  induction l generalizing cur ce with
  | nil =>
      intro cl hcl
      simp only [buildClusters, List.mem_singleton] at hcl
      subst hcl
      simpa using h
  | cons t rest ih =>
      intro cl hcl
      by_cases hb : t.startMinutes < ce
      · simp only [buildClusters, hb, if_true] at hcl
        exact ih _ _ (by simpa [List.append_assoc] using h) cl hcl
      · simp only [buildClusters, hb, if_false] at hcl
        rcases List.mem_cons.mp hcl with h1 | h1
        · exact h1 ▸ (List.pairwise_append.mp h).1
        · exact ih [t] t.endMinutes
            (by simpa using (List.pairwise_append.mp h).2.1) cl h1

/-- Pairwise properties restrict to each cluster. -/
theorem clusters_pairwise {R : PTask → PTask → Prop} {l : List PTask}
    (h : List.Pairwise R l) :
    ∀ cl ∈ clusters l, List.Pairwise R cl := by
  cases l with
  | nil => simp [clusters]
  | cons t rest =>
      intro cl hcl
      exact buildClusters_pairwise rest [t] t.endMinutes (by simpa using h)
        cl hcl

/-! ### Positioned-list lemmas -/

/-- The positioned list is sorted by start offset. -/
theorem positionedTasks_sorted (ts : List DispTask) :
    (positionedTasks ts).Pairwise
      (fun a b => a.startMinutes ≤ b.startMinutes) := by
  unfold positionedTasks
  refine List.Pairwise.map _ ?_ (List.sorted_insertionSort dispLE ts)
  intro a b hab
  have : a.dispStart ≤ b.dispStart := by
    rcases hab with h | ⟨h1, _⟩
    · omega
    · omega
  simp only [toPositioned]
  omega

/-- Each positioned task's offsets are its display times shifted by the
common `minHour` offset. -/
theorem positionedTasks_offsets (ts : List DispTask) :
    ∀ p ∈ positionedTasks ts,
      p.startMinutes = p.dispStart - 60 * minHour ts ∧
        p.endMinutes = p.dispEnd - 60 * minHour ts := by
  unfold positionedTasks
  intro p hp
  obtain ⟨t, -, rfl⟩ := List.mem_map.mp hp
  exact ⟨rfl, rfl⟩

/-- Every block's underlying positioned task belongs to its cluster. -/
theorem layoutCluster_ptask_mem (cl : List PTask) :
    ∀ b ∈ layoutCluster cl, b.ptask ∈ cl := by
  unfold layoutCluster
  intro b hb
  obtain ⟨p, hp, rfl⟩ := List.mem_map.mp hb
  exact assignColumns_fst_mem [] cl p hp

/-- The per-cluster separation invariant, lifted to blocks: within one
cluster, of two blocks sharing a column the earlier ends no later than the
later starts. -/
theorem layoutCluster_pairwise (cl : List PTask)
    (hsort : cl.Pairwise (fun a b => a.startMinutes ≤ b.startMinutes)) :
    (layoutCluster cl).Pairwise (fun a b => a.column = b.column →
      a.ptask.endMinutes ≤ b.ptask.startMinutes) := by
  unfold layoutCluster
  refine List.Pairwise.map _ ?_ (assignColumns_invariant [] cl hsort).1
  intro a b hab hcol
  exact hab hcol

/-- C2: two blocks of the same cluster whose display intervals overlap as
open intervals are never assigned the same column. -/
theorem claim2_no_collision (ts : List DispTask) (cl : List PTask)
    (hcl : cl ∈ clusters (positionedTasks ts)) (i j : Nat) (A B : Arranged)
    (hA : (layoutCluster cl)[i]? = some A)
    (hB : (layoutCluster cl)[j]? = some B)
    (hij : i ≠ j) (hover : overlapsA A B) : A.column ≠ B.column := by
  intro hcoleq
  have hclsort : cl.Pairwise (fun a b => a.startMinutes ≤ b.startMinutes) :=
    clusters_pairwise (positionedTasks_sorted ts) cl hcl
  have hlc := layoutCluster_pairwise cl hclsort
  obtain ⟨hi, hAi⟩ := List.getElem?_eq_some_iff.mp hA
  obtain ⟨hj, hBj⟩ := List.getElem?_eq_some_iff.mp hB
  have hAmem : A ∈ layoutCluster cl := hAi ▸ List.getElem_mem hi
  have hBmem : B ∈ layoutCluster cl := hBj ▸ List.getElem_mem hj
  obtain ⟨hAs, hAe⟩ := positionedTasks_offsets ts A.ptask
    (mem_of_mem_clusters hcl (layoutCluster_ptask_mem cl A hAmem))
  obtain ⟨hBs, hBe⟩ := positionedTasks_offsets ts B.ptask
    (mem_of_mem_clusters hcl (layoutCluster_ptask_mem cl B hBmem))
  unfold overlapsA at hover
  rcases Nat.lt_trichotomy i j with hlt | heq | hgt
  · have hrel := List.pairwise_iff_getElem.mp hlc i j hi hj hlt
    rw [hAi, hBj] at hrel
    have hsep := hrel hcoleq
    omega
  · exact hij heq
  · have hrel := List.pairwise_iff_getElem.mp hlc j i hj hi hgt
    rw [hAi, hBj] at hrel
    have hsep := hrel hcoleq.symm
    omega

/-- C2 witness. -/
theorem claim2_no_collision_witness :
    [(⟨1, 0, 60, 0, 60⟩ : PTask), ⟨2, 30, 90, 30, 90⟩] ∈
        clusters (positionedTasks [⟨1, 0, 60⟩, ⟨2, 30, 90⟩]) ∧
    (1 : Nat) ≠ 0 ∧
    overlapsA ⟨⟨1, 0, 60, 0, 60⟩, 0, 2⟩ ⟨⟨2, 30, 90, 30, 90⟩, 1, 2⟩ ∧
    (⟨⟨1, 0, 60, 0, 60⟩, 0, 2⟩ : Arranged).column ≠
      (⟨⟨2, 30, 90, 30, 90⟩, 1, 2⟩ : Arranged).column :=
  ⟨by decide, by decide, by decide,
    claim2_no_collision [⟨1, 0, 60⟩, ⟨2, 30, 90⟩]
      [⟨1, 0, 60, 0, 60⟩, ⟨2, 30, 90, 30, 90⟩] (by decide) 0 1
      ⟨⟨1, 0, 60, 0, 60⟩, 0, 2⟩ ⟨⟨2, 30, 90, 30, 90⟩, 1, 2⟩
      (by decide) (by decide) (by decide) (by decide)⟩

/-- C4: on the four tasks with minute offsets `[0,60)`, `[30,90)`,
`[45,75)`, `[60,120)` the engine forms a single cluster, gives the three
mutually overlapping tasks the pairwise distinct columns 0, 1, 2, reuses
column 0 for the fourth task, and sets `totalColumns = 3` for all four. -/
theorem claim4_concrete_scenario :
    (clusters (positionedTasks
        [⟨1, 0, 60⟩, ⟨2, 30, 90⟩, ⟨3, 45, 75⟩, ⟨4, 60, 120⟩])).map
      (fun c => c.map (fun p => p.id)) = [[1, 2, 3, 4]] ∧
    (arrangeTasks [⟨1, 0, 60⟩, ⟨2, 30, 90⟩, ⟨3, 45, 75⟩, ⟨4, 60, 120⟩]).map
      (fun b => (b.ptask.id, b.column, b.totalColumns)) =
    [(1, 0, 3), (2, 1, 3), (3, 2, 3), (4, 0, 3)] := by
  refine ⟨by decide, by decide⟩

/-- If a scan head does not overlap any of the remaining tasks (all of
positive duration, sorted, mutually non-overlapping), every produced
cluster is a singleton. -/
theorem buildClusters_all_singleton (l : List PTask) :
    ∀ c : PTask,
      l.Pairwise (fun a b => a.startMinutes ≤ b.startMinutes) →
      l.Pairwise (fun a b =>
        ¬ (max a.startMinutes b.startMinutes <
            min a.endMinutes b.endMinutes)) →
      (∀ p ∈ l, p.startMinutes < p.endMinutes) →
      (∀ u ∈ l,
        ¬ (max c.startMinutes u.startMinutes <
            min c.endMinutes u.endMinutes) ∧
          c.startMinutes ≤ u.startMinutes) →
      c.startMinutes < c.endMinutes →
      ∀ cl ∈ buildClusters [c] c.endMinutes l, ∃ x, cl = [x] := by
  induction l with
  | nil =>
      intro c _ _ _ _ _ cl hcl
      simp only [buildClusters, List.mem_singleton] at hcl
      exact ⟨c, hcl⟩
  | cons t rest ih =>
      intro c hsort hno hpos hc hcpos cl hcl
      obtain ⟨hct, hcs⟩ := hc t (List.mem_cons_self _ _)
      have htpos := hpos t (List.mem_cons_self _ _)
      have hnb : ¬ (t.startMinutes < c.endMinutes) := by omega
      simp only [buildClusters, hnb, if_false] at hcl
      rcases List.mem_cons.mp hcl with h1 | h1
      · exact ⟨c, h1⟩
      · refine ih t (List.pairwise_cons.mp hsort).2
          (List.pairwise_cons.mp hno).2
          (fun p hp => hpos p (List.mem_cons_of_mem _ hp)) ?_ htpos cl h1
        intro u hu
        exact ⟨(List.pairwise_cons.mp hno).1 u hu,
          (List.pairwise_cons.mp hsort).1 u hu⟩

/-- For a sorted list of positive-duration, mutually non-overlapping
tasks, every cluster is a singleton. -/
theorem clusters_all_singleton (l : List PTask)
    (hsort : l.Pairwise (fun a b => a.startMinutes ≤ b.startMinutes))
    (hno : l.Pairwise (fun a b =>
      ¬ (max a.startMinutes b.startMinutes <
          min a.endMinutes b.endMinutes)))
    (hpos : ∀ p ∈ l, p.startMinutes < p.endMinutes) :
    ∀ cl ∈ clusters l, ∃ x, cl = [x] := by
  cases l with
  | nil => simp [clusters]
  | cons t rest =>
      intro cl hcl
      refine buildClusters_all_singleton rest t
        (List.pairwise_cons.mp hsort).2 (List.pairwise_cons.mp hno).2
        (fun p hp => hpos p (List.mem_cons_of_mem _ hp)) ?_
        (hpos t (List.mem_cons_self _ _)) cl hcl

      intro u hu
      exact ⟨(List.pairwise_cons.mp hno).1 u hu,
        (List.pairwise_cons.mp hsort).1 u hu⟩

/-- A singleton cluster yields one block in column 0 of 1. -/
theorem layoutCluster_singleton (x : PTask) :
    layoutCluster [x] = [⟨x, 0, 1⟩] := rfl

/-- C5 (amended): for tasks of positive duration no two of which overlap,
the engine assigns every block column 0 and `totalColumns = 1`.  (The
restriction to positive durations is forced: a zero-width task can join
another task's cluster and receive a fresh column, see the
counterexample.) -/
theorem claim5_minimality (ts : List DispTask)
    (hpos : ∀ t ∈ ts, t.dispStart < t.dispEnd)
    (hno : ts.Pairwise (fun a b => ¬ overlapsD a b)) :
    ∀ b ∈ arrangeTasks ts, b.column = 0 ∧ b.totalColumns = 1 := by
  have hsym : ∀ {x y : DispTask}, ¬ overlapsD x y → ¬ overlapsD y x := by
    intro x y h
    unfold overlapsD at *
    omega
  have hnoP : (positionedTasks ts).Pairwise
      (fun a b => ¬ (max a.startMinutes b.startMinutes <
        min a.endMinutes b.endMinutes)) := by
    unfold positionedTasks
    refine List.Pairwise.map _ ?_
      (((List.perm_insertionSort dispLE ts).pairwise_iff hsym).mpr hno)
    intro a b hab
    unfold overlapsD at hab
    simp only [toPositioned]
    omega
  have hposP : ∀ p ∈ positionedTasks ts,
      p.startMinutes < p.endMinutes := by
    unfold positionedTasks
    intro p hp
    obtain ⟨t, ht, rfl⟩ := List.mem_map.mp hp
    have ht2 := hpos t ((List.perm_insertionSort dispLE ts).mem_iff.mp ht)
    simp only [toPositioned]
    omega
  intro b hb
  obtain ⟨cl, hcl, hbc⟩ := List.mem_flatMap.mp hb
  obtain ⟨x, rfl⟩ :=
    clusters_all_singleton _ (positionedTasks_sorted ts) hnoP hposP cl hcl
  rw [layoutCluster_singleton] at hbc
  rcases List.mem_singleton.mp hbc with rfl
  exact ⟨rfl, rfl⟩

/-- C5 witness (for the amended claim). -/
theorem claim5_minimality_witness :
    (∀ t ∈ [(⟨1, 0, 60⟩ : DispTask), ⟨2, 60, 120⟩],
      t.dispStart < t.dispEnd) ∧
    List.Pairwise (fun a b => ¬ overlapsD a b)
      [(⟨1, 0, 60⟩ : DispTask), ⟨2, 60, 120⟩] ∧
    ∀ b ∈ arrangeTasks [(⟨1, 0, 60⟩ : DispTask), ⟨2, 60, 120⟩],
      b.column = 0 ∧ b.totalColumns = 1 :=
  ⟨by decide, by decide, claim5_minimality _ (by decide) (by decide)⟩

/-- C10: the engine emits exactly one block per input task (the blocks'
underlying tasks are a permutation of the input), and every block
satisfies `column < totalColumns` with at least one column, so the derived
width `1/totalColumns` and offset `column/totalColumns` stay inside the
timeline. -/
theorem claim10_blocks (ts : List DispTask) (_hne : ts ≠ []) :
    ((arrangeTasks ts).map blockTask).Perm ts ∧
    ∀ b ∈ arrangeTasks ts,
      b.column < b.totalColumns ∧ 1 ≤ b.totalColumns := by
  have h1 : (arrangeTasks ts).map (fun b => b.ptask) = positionedTasks ts := by
    unfold arrangeTasks
    rw [List.map_flatMap]
    have hcl : ∀ cl : List PTask,
        ((layoutCluster cl).map (fun b => b.ptask)) = cl := by
      intro cl
      unfold layoutCluster
      rw [List.map_map]
      exact assignColumns_map_fst [] cl
    calc (clusters (positionedTasks ts)).flatMap
          (fun cl => (layoutCluster cl).map fun b => b.ptask)
        = (clusters (positionedTasks ts)).flatMap (fun cl => cl) := by
          simp only [hcl]
      _ = (clusters (positionedTasks ts)).flatten := by
          rw [List.flatten_eq_flatMap]
          rfl
      _ = positionedTasks ts := clusters_flatten _
  constructor
  · have h2 : (arrangeTasks ts).map blockTask = ts.insertionSort dispLE := by
      have hcomp : (arrangeTasks ts).map blockTask =
          ((arrangeTasks ts).map (fun b => b.ptask)).map
            (fun p => (⟨p.id, p.dispStart, p.dispEnd⟩ : DispTask)) := by
        rw [List.map_map]
        rfl
      rw [hcomp, h1]
      unfold positionedTasks
      rw [List.map_map]
      have hid : ((fun p : PTask =>
          (⟨p.id, p.dispStart, p.dispEnd⟩ : DispTask)) ∘
            toPositioned (minHour ts)) = id := by
        funext t
        cases t
        rfl
      rw [hid, List.map_id]
    rw [h2]
    exact List.perm_insertionSort dispLE ts
  · intro b hb
    obtain ⟨cl, hcl, hbc⟩ := List.mem_flatMap.mp hb
    unfold layoutCluster at hbc
    obtain ⟨p, hp, rfl⟩ := List.mem_map.mp hbc
    have hlt := assignColumns_col_lt [] cl p hp
    constructor
    · show p.2 < (assignColumns [] cl).2.length
      exact hlt
    · show 1 ≤ (assignColumns [] cl).2.length
      omega

/-- C10 witness. -/
theorem claim10_blocks_witness :
    ([(⟨1, 0, 60⟩ : DispTask)] ≠ []) ∧
    ((arrangeTasks [(⟨1, 0, 60⟩ : DispTask)]).map blockTask).Perm
      [(⟨1, 0, 60⟩ : DispTask)] ∧
    ∀ b ∈ arrangeTasks [(⟨1, 0, 60⟩ : DispTask)],
      b.column < b.totalColumns ∧ 1 ≤ b.totalColumns :=
  ⟨by decide, (claim10_blocks [⟨1, 0, 60⟩] (by decide)).1,
    (claim10_blocks [⟨1, 0, 60⟩] (by decide)).2⟩

/-- C9: a completed task that ends on the current day but started before
its local midnight is displayed from midnight, while the underlying task
record — `startTime` and every other field — is carried through
unchanged, and the display end is the task's real end time. -/
theorem claim9_clipping (task : Task) (d e : Int)
    (he : task.endTime = some e)
    (he1 : d * msPerDay ≤ e) (he2 : e < (d + 1) * msPerDay)
    (hs : task.startTime < d * msPerDay) :
    (processTask (getTodayMidnight d) task).displayStartTime =
      getTodayMidnight d ∧
    (processTask (getTodayMidnight d) task).task = task ∧
    (processTask (getTodayMidnight d) task).displayEndTime = e := by
  have hmd : isMultiDayTask task = true := by
    simp only [isMultiDayTask, he]
    rw [bne_iff_ne]
    unfold localDayOf msPerDay
    unfold msPerDay at he1 he2 hs
    omega
  refine ⟨?_, rfl, ?_⟩
  · have hdec : decide (task.startTime < getTodayMidnight d) = true := by
      unfold getTodayMidnight
      exact decide_eq_true hs
    simp [processTask, hmd, hdec]
  · simp [processTask, he]

/-- C9 witness. -/
theorem claim9_clipping_witness :
    ({ eventId := "w9", activityName := "sleep", tags := [],
       startTime := -3600000, endTime := some 3600000,
       duration := some 120, description := none, moodScore := none,
       progress := none, isActive := false } : Task).endTime =
        some 3600000 ∧
    (0 : Int) * msPerDay ≤ 3600000 ∧
    (3600000 : Int) < (0 + 1) * msPerDay ∧
    (-3600000 : Int) < 0 * msPerDay ∧
    ((processTask (getTodayMidnight 0)
        { eventId := "w9", activityName := "sleep", tags := [],
          startTime := -3600000, endTime := some 3600000,
          duration := some 120, description := none, moodScore := none,
          progress := none, isActive := false }).displayStartTime =
      getTodayMidnight 0 ∧
    (processTask (getTodayMidnight 0)
        { eventId := "w9", activityName := "sleep", tags := [],
          startTime := -3600000, endTime := some 3600000,
          duration := some 120, description := none, moodScore := none,
          progress := none, isActive := false }).task =
      { eventId := "w9", activityName := "sleep", tags := [],
        startTime := -3600000, endTime := some 3600000,
        duration := some 120, description := none, moodScore := none,
        progress := none, isActive := false } ∧
    (processTask (getTodayMidnight 0)
        { eventId := "w9", activityName := "sleep", tags := [],
          startTime := -3600000, endTime := some 3600000,
          duration := some 120, description := none, moodScore := none,
          progress := none, isActive := false }).displayEndTime =
      3600000) :=
  ⟨rfl, by decide, by decide, by decide,
    claim9_clipping _ 0 3600000 rfl (by decide) (by decide) (by decide)⟩

/-- C5 (counterexample to the claim as stated): the zero-duration task
`[5,5)` overlaps nothing (its open interval is empty), yet alongside `[5,8)`
it is placed in that task's cluster and receives column 1 with
`totalColumns = 2`, not column 0 with `totalColumns = 1`. -/
theorem claim5_counterexample :
    ¬ overlapsD ⟨1, 5, 8⟩ ⟨2, 5, 5⟩ ∧
    (arrangeTasks [⟨1, 5, 8⟩, ⟨2, 5, 5⟩]).map
      (fun b => (b.ptask.id, b.column, b.totalColumns)) =
    [(1, 0, 2), (2, 1, 2)] := by
  refine ⟨by decide, by decide⟩

end MyJournal
